import Mathlib

/-!
Verification of the audio-whiz capture/analysis core.

The definitions below are a shallow embedding of the Rust sources:
  * `src/audio/introspect.rs` — per-channel capture buffers, the pull-driven
    `IntrospectedSource` wrapper and the push-driven `IntrospectedStream`
    callback, and the `Introspectable` snapshot reader;
  * `src/fft/fft.rs` — `AudioView` and `FrequencySpectrum` with its linear
    bin/frequency conversions and generic `merge`;
  * `src/numtools.rs` — `lerp`, `lerp_index_fn`, `to_dbfs`;
  * `src/main.rs` — the compositor `update` tick (temporal smoothing and
    channel alignment by `zip_longest`).

Machine floats (`f32`) are idealised as exact rationals `ℚ`; real-valued
transcendental expressions (`powf`, `log10`) are idealised over `ℝ`.
`VecDeque` buffers are lists with the front at the head, so element 0 is the
most recently pushed sample.  Rust panics (out-of-bounds slice indexing) are
modelled as `none` of an `Option` result.
-/

namespace AudioWhiz

variable {α : Type*}

/-- One push into a channel buffer, exactly as performed by both producer
shapes in `src/audio/introspect.rs` (lines 72-76 and 179-183): `push_front`
the new sample, then `pop_back` when the length exceeds `buffer_size`. -/
def pushSample (cap : Nat) (buf : List α) (s : α) : List α :=
  let pushed := s :: buf
  if cap < pushed.length then pushed.dropLast else pushed

/-- A whole sequence of pushes into one channel buffer, oldest first. -/
def pushAll (cap : Nat) (buf : List α) (samples : List α) : List α :=
  samples.foldl (pushSample cap) buf

/-- The mutable state shared by both producer shapes: the per-channel buffers
(`access`, one `VecDeque` per channel) and the round-robin cursor
`current_channel`. -/
structure CaptureState (α : Type u) where
  buffers : List (List α)
  currentChannel : Nat

/-- One interleaved sample arriving, as in the `IntrospectedStream` input
callback (`src/audio/introspect.rs` lines 70-78): write to the buffer of
`current_channel`, then advance the cursor modulo the channel count. -/
def pushInterleaved (cap : Nat) (st : CaptureState α) (s : α) : CaptureState α :=
  ⟨st.buffers.set st.currentChannel
      (pushSample cap (st.buffers.getD st.currentChannel []) s),
    (st.currentChannel + 1) % st.buffers.length⟩

/-- A block of interleaved samples delivered to the callback, oldest first. -/
def pushStream (cap : Nat) (st : CaptureState α) (samples : List α) :
    CaptureState α :=
  samples.foldl (pushInterleaved cap) st

/-- The sub-sequence of an interleaved stream that round-robin routing sends
to channel `j`, when the cursor starts at channel `c` out of `K`. -/
def routed (K j : Nat) : Nat → List α → List α
  | _, [] => []
  | c, s :: rest =>
    if c = j then s :: routed K j ((c + 1) % K) rest
    else routed K j ((c + 1) % K) rest

/-- A wrapped `rodio::Source`: its remaining sample sequence plus the
metadata the `Source` trait exposes (`channels`, `sample_rate`,
`current_frame_len`, `total_duration`). -/
structure SourceModel (α : Type u) where
  samples : List α
  channels : Nat
  sampleRate : Nat
  currentFrameLen : Option Nat
  totalDuration : Option ℚ

/-- The pull-driven wrapper `IntrospectedSource` from
`src/audio/introspect.rs` lines 153-168. -/
structure IntrospectedSource (α : Type u) where
  access : List (List α)
  bufferSize : Nat
  original : SourceModel α
  currentChannel : Nat

/-- Model of `IntrospectedSource::next` (lines 173-188): pull from the wrapped source;
on `Some`, `push_front` into the current channel's buffer, evict the oldest
entry when over `buffer_size`, and advance `current_channel`; on `None`,
leave all state untouched and report exhaustion. -/
def IntrospectedSource.next (st : IntrospectedSource α) :
    Option α × IntrospectedSource α :=
  match st.original.samples with
  | [] => (none, st)
  | v :: rest =>
    (some v,
      ⟨st.access.set st.currentChannel
          (pushSample st.bufferSize (st.access.getD st.currentChannel []) v),
        st.bufferSize,
        { st.original with samples := rest },
        (st.currentChannel + 1) % st.access.length⟩)

/-- The `Source` trait delegation of the wrapper (lines 191-207):
`channels` forwards to the wrapped source. -/
def IntrospectedSource.channels (st : IntrospectedSource α) : Nat :=
  st.original.channels

/-- Delegation: `sample_rate` forwards to the wrapped source (lines 200-202). -/
def IntrospectedSource.sample_rate (st : IntrospectedSource α) : Nat :=
  st.original.sampleRate

/-- Delegation: `current_frame_len` forwards to the wrapped source (lines 192-194). -/
def IntrospectedSource.current_frame_len (st : IntrospectedSource α) :
    Option Nat :=
  st.original.currentFrameLen

/-- Delegation: `total_duration` forwards to the wrapped source (lines 204-206). -/
def IntrospectedSource.total_duration (st : IntrospectedSource α) : Option ℚ :=
  st.original.totalDuration

/-- The sequence of values observed over `n` consecutive `next()` calls on
the wrapper, together with the final wrapper state. -/
def runSource : Nat → IntrospectedSource α → List (Option α) × IntrospectedSource α
  | 0, st => ([], st)
  | n + 1, st =>
    let step := st.next
    let rest := runSource n step.2
    (step.1 :: rest.1, rest.2)

/-- What one `next()` call on the bare wrapped source does. -/
def sourceNext : List α → Option α × List α
  | [] => (none, [])
  | v :: rest => (some v, rest)

/-- The sequence of values the bare wrapped source would yield over `n`
consecutive `next()` calls. -/
def runPlain : Nat → List α → List (Option α)
  | 0, _ => []
  | n + 1, l => (sourceNext l).1 :: runPlain n (sourceNext l).2

/-- Model of `Introspectable::channels` (`src/audio/introspect.rs` lines 138-143):
snapshot every channel buffer, newest-first, then chain
`(0..(buffer_size - len)).map(|_| T::default())` — for `f32` samples the
default is the zero sample. -/
def Introspectable.channels (access : List (List ℚ)) (bufferSize : Nat) :
    List (List ℚ) :=
  access.map (fun channel =>
    channel ++ (List.range (bufferSize - channel.length)).map (fun _ => (0 : ℚ)))

/-- Model of `AudioView` (`src/fft/fft.rs` lines 12-15): an immutable snapshot of one
channel plus its sample rate. -/
structure AudioView where
  samples : List ℚ
  sampleRate : Nat
deriving DecidableEq

/-- Model of `Introspectable::audio_views` (lines 147-149): wrap each snapshot in an
`AudioView` carrying the session's sample rate. -/
def Introspectable.audio_views (access : List (List ℚ)) (sampleRate : Nat)
    (bufferSize : Nat) : List AudioView :=
  (Introspectable.channels access bufferSize).map
    (fun channel => ⟨channel, sampleRate⟩)

/-- Model of `AudioView::subview` (`src/fft/fft.rs` lines 31-36): Rust slice indexing
`samples[start..stop]`, which panics — modelled as `none` — unless
`start ≤ stop ≤ len`. -/
def AudioView.subview (v : AudioView) (start stop : Nat) : Option AudioView :=
  if start ≤ stop ∧ stop ≤ v.samples.length then
    some ⟨(v.samples.drop start).take (stop - start), v.sampleRate⟩
  else none

/-- Model of `FrequencySpectrum` (`src/fft/fft.rs` lines 110-114): magnitude bins plus
the originating sample rate. -/
structure FrequencySpectrum where
  bins : List ℚ
  sampleRate : Nat
deriving DecidableEq

/-- Model of `Default for FrequencySpectrum` (lines 116-123): empty bins, sample rate 1. -/
def FrequencySpectrum.default : FrequencySpectrum := ⟨[], 1⟩

/-- Model of `nyquist_frequency` (lines 154-156): `sample_rate / 2` with integer
division. -/
def FrequencySpectrum.nyquist_frequency (s : FrequencySpectrum) : Nat :=
  s.sampleRate / 2

/-- Model of `hertz_to_bin` (lines 144-147): `(hertz / nyquist) * bin_count`. -/
def FrequencySpectrum.hertz_to_bin (s : FrequencySpectrum) (hertz : ℚ) : ℚ :=
  hertz / (s.nyquist_frequency : ℚ) * (s.bins.length : ℚ)

/-- Model of `bin_to_hertz` (lines 149-152): `(bin / bin_count) * nyquist`. -/
def FrequencySpectrum.bin_to_hertz (s : FrequencySpectrum) (bin : Nat) : ℚ :=
  (bin : ℚ) / (s.bins.length : ℚ) * (s.nyquist_frequency : ℚ)

/-- Model of `get` (lines 140-142): the bin value when the index is in range. -/
def FrequencySpectrum.get (s : FrequencySpectrum) (bin : Nat) : Option ℚ :=
  s.bins.get? bin

/-- Model of `merge` (lines 126-138): apply the reconciler to every indexed bin of
`self` (paired with its frequency via `bin_to_hertz`), producing a fresh
spectrum with `self`'s sample rate; neither input is changed. -/
def FrequencySpectrum.merge (s other : FrequencySpectrum)
    (reconciler : FrequencySpectrum → ℚ × ℚ → FrequencySpectrum → ℚ) :
    FrequencySpectrum :=
  ⟨s.bins.enum.map (fun p => reconciler s (s.bin_to_hertz p.1, p.2) other),
    s.sampleRate⟩

/-- Model of `to_dbfs` (`src/numtools.rs` lines 5-11): compute `20 * log10(sample)`
and keep the value only when it classifies as zero or a normal float.  In
the real-number idealisation `20·log10 x` is a finite value exactly when
`x > 0` (zero yields `-inf`, negatives yield `NaN`), so the classification
collapses to a sign test.  The function is total: bad inputs yield `none`,
never a crash. -/
noncomputable def to_dbfs (sample : ℝ) : Option ℝ :=
  let amplitude := 20 * Real.logb 10 sample
  if 0 < sample then some amplitude else none

/-- Rust `f32::trunc` (round toward zero), used by `f32::fract` in
`lerp_index_fn`: `x.fract() = x - x.trunc()`. -/
def truncQ (x : ℚ) : ℤ :=
  if x < 0 then ⌈x⌉ else ⌊x⌋

/-- Model of `lerp_index_fn` (`src/numtools.rs` lines 19-28): fractional-index lookup
`min + (data(floor(index+1)) - min) * index.fract()` with out-of-range reads
replaced by `wrap`.  Rust's `as usize` cast saturates negative floats to 0,
which `Int.toNat` mirrors. -/
def lerp_index_fn (data : Nat → Option ℚ) (index : ℚ) (wrap : ℚ) : ℚ :=
  let m := (data (⌊index⌋).toNat).getD wrap
  m + (((data (⌊index + 1⌋).toNat).getD wrap) - m) * (index - (truncQ index : ℚ))

/-- Model of `lerp` (`src/numtools.rs` lines 30-37): `a + (b - a) * t`. -/
def lerp (a b t : ℚ) : ℚ := a + (b - a) * t

/-- The per-tick temporal smoothing factor of `update` (`src/main.rs` line
214): `1 - (1 - 0.2)^(Δt * 100)`, with `lerp_per_cs = 0.2`. -/
noncomputable def smoothingFactor (deltaTime : ℝ) : ℝ :=
  1 - (1 - 0.2 : ℝ) ^ (deltaTime * 100)

/-- The temporal-smoothing merge of one channel in `update` (`src/main.rs`
lines 210-215): `new.merge(&old, ...)` where each bin of the newly blended
spectrum is `lerp(old_value_at_matching_frequency, value, factor)`. -/
def smoothTick (old new : FrequencySpectrum) (factor : ℚ) : FrequencySpectrum :=
  new.merge old (fun _ p old' =>
    let approximate_bin := old'.hertz_to_bin p.1
    let old_value := lerp_index_fn old'.get approximate_bin 0
    lerp old_value p.2 factor)

/-- The per-tick channel alignment of `update` (`src/main.rs` lines 198-219):
`zip_longest` of the previous spectra with the new per-channel spectra;
`Both` smooths, `Left` (a disappeared channel) becomes
`FrequencySpectrum::default()`, `Right` (a new channel) passes through raw. -/
def updateSpectra (factor : ℚ) :
    List FrequencySpectrum → List FrequencySpectrum → List FrequencySpectrum
  | [], [] => []
  | _ :: os, [] => FrequencySpectrum.default :: updateSpectra factor os []
  | [], n :: ns => n :: updateSpectra factor [] ns
  | o :: os, n :: ns => smoothTick o n factor :: updateSpectra factor os ns

/-- The capture buffer capacity chosen by `introspect` / `introspect_device`
(`src/audio/introspect.rs` lines 21-22 and 41-42):
`ceil(sample_rate * buffer_duration)`. -/
def bufferSizeFor (sampleRate : Nat) (bufferDuration : ℚ) : Nat :=
  (⌈(sampleRate : ℚ) * bufferDuration⌉).toNat

/-! ## Helper lemmas -/

theorem pushSample_eq_take (cap : Nat) (buf : List α) (s : α)
    (h : buf.length ≤ cap) : pushSample cap buf s = (s :: buf).take cap := by
  unfold pushSample
  by_cases hc : cap < (s :: buf).length
  · rw [if_pos hc, List.dropLast_eq_take]
    have hlen : buf.length = cap := by
      simp only [List.length_cons] at hc; omega
    simp [hlen]
  · rw [if_neg hc]
    exact (List.take_of_length_le (by omega)).symm

theorem take_append_take (n : Nat) (xs ys : List α) :
    (xs ++ ys.take n).take n = (xs ++ ys).take n := by
  rw [List.take_append_eq_append_take, List.take_append_eq_append_take,
    List.take_take]
  congr 2
  exact Nat.min_eq_left (Nat.sub_le n xs.length)

theorem pushAll_eq (cap : Nat) :
    ∀ (samples buf : List α), buf.length ≤ cap →
      pushAll cap buf samples = (samples.reverse ++ buf).take cap := by
  intro samples
  induction samples with
  | nil =>
    intro buf h
    simpa [pushAll] using (List.take_of_length_le h).symm
  | cons s rest ih =>
    intro buf h
    have hstep : pushSample cap buf s = (s :: buf).take cap :=
      pushSample_eq_take cap buf s h
    have h1 : (pushSample cap buf s).length ≤ cap := by
      rw [hstep, List.length_take]; omega
    calc pushAll cap buf (s :: rest)
        = pushAll cap (pushSample cap buf s) rest := rfl
      _ = (rest.reverse ++ pushSample cap buf s).take cap := ih _ h1
      _ = (rest.reverse ++ (s :: buf).take cap).take cap := by rw [hstep]
      _ = (rest.reverse ++ (s :: buf)).take cap := take_append_take ..
      _ = ((s :: rest).reverse ++ buf).take cap := by simp

theorem pushStream_buffers_getD (cap : Nat) :
    ∀ (samples : List α) (bufs : List (List α)) (c : Nat), c < bufs.length →
      (∀ b ∈ bufs, b.length ≤ cap) → ∀ j, j < bufs.length →
      (pushStream cap ⟨bufs, c⟩ samples).buffers.getD j []
        = ((routed bufs.length j c samples).reverse ++ bufs.getD j []).take cap := by
  intro samples
  induction samples with
  | nil =>
    intro bufs c hc hlen j hj
    have hble : (bufs.getD j []).length ≤ cap := by
      rw [List.getD_eq_getElem _ _ hj]
      exact hlen _ (List.getElem_mem hj)
    simpa [pushStream, routed] using (List.take_of_length_le hble).symm
  | cons s rest ih =>
    intro bufs c hc hlen j hj
    have hK : 0 < bufs.length := Nat.lt_of_le_of_lt (Nat.zero_le c) hc
    have hcb : (bufs.getD c []).length ≤ cap := by
      rw [List.getD_eq_getElem _ _ hc]
      exact hlen _ (List.getElem_mem hc)
    have hstep : pushSample cap (bufs.getD c []) s
        = (s :: bufs.getD c []).take cap :=
      pushSample_eq_take cap _ s hcb
    set bufs' := bufs.set c (pushSample cap (bufs.getD c []) s) with hbufs'
    have hlen' : bufs'.length = bufs.length := by
      simp [hbufs']
    have hmem' : ∀ b ∈ bufs', b.length ≤ cap := by
      intro b hb
      rcases List.mem_or_eq_of_mem_set hb with h | h
      · exact hlen _ h
      · rw [h, hstep, List.length_take]; omega
    have hc' : (c + 1) % bufs.length < bufs'.length := by
      rw [hlen']; exact Nat.mod_lt _ hK
    have hstream : pushStream cap ⟨bufs, c⟩ (s :: rest)
        = pushStream cap ⟨bufs', (c + 1) % bufs.length⟩ rest := rfl
    rw [hstream, ih bufs' _ hc' hmem' j (hlen' ▸ hj), hlen']
    by_cases hcj : c = j
    · subst hcj
      have hget : bufs'.getD c [] = (s :: bufs.getD c []).take cap := by
        rw [hbufs', List.getD_eq_getElem _ _ (by simpa using hc),
          List.getElem_set_self _]
        exact hstep
      rw [hget]
      have hr : routed bufs.length c c (s :: rest)
          = s :: routed bufs.length c ((c + 1) % bufs.length) rest := by
        simp [routed]
      rw [hr, List.reverse_cons, List.append_assoc, take_append_take]
      simp
    · have hget : bufs'.getD j [] = bufs.getD j [] := by
        rw [hbufs']
        rcases Nat.lt_or_ge j bufs.length with hjl | hjl
        · rw [List.getD_eq_getElem _ _ (by simpa using hjl),
            List.getD_eq_getElem _ _ hjl]
          exact List.getElem_set_ne (by omega) _
        · omega
      have hr : routed bufs.length j c (s :: rest)
          = routed bufs.length j ((c + 1) % bufs.length) rest := by
        simp [routed, hcj]
      rw [hr, hget]

theorem routed_eq_filter_enumFrom (K j : Nat) :
    ∀ (samples : List α) (n c : Nat), c < K → n % K = c →
      routed K j c samples
        = ((List.enumFrom n samples).filter (fun p => p.1 % K == j)).map
            Prod.snd := by
  intro samples
  induction samples with
  | nil => intro n c _ _; simp [routed]
  | cons s rest ih =>
    intro n c hc hn
    have hK : 0 < K := Nat.lt_of_le_of_lt (Nat.zero_le c) hc
    have hsucc : (n + 1) % K = (c + 1) % K := by
      conv_lhs => rw [Nat.add_mod]
      conv_rhs => rw [Nat.add_mod]
      rw [hn, Nat.mod_eq_of_lt hc]
    rw [List.enumFrom_cons]
    by_cases hcj : c = j
    · have hfil : List.filter (fun p => p.1 % K == j)
            (((n, s) : Nat × α) :: List.enumFrom (n + 1) rest)
          = (n, s) :: List.filter (fun p => p.1 % K == j)
              (List.enumFrom (n + 1) rest) := by
        simp [List.filter_cons, hn, hcj]
      rw [hfil]
      simp only [routed, if_pos hcj, List.map_cons]
      rw [ih (n + 1) ((c + 1) % K) (Nat.mod_lt _ hK) hsucc]
    · have hfil : List.filter (fun p => p.1 % K == j)
            (((n, s) : Nat × α) :: List.enumFrom (n + 1) rest)
          = List.filter (fun p => p.1 % K == j)
              (List.enumFrom (n + 1) rest) := by
        simp [List.filter_cons, hn, hcj]
      rw [hfil]
      simp only [routed, if_neg hcj]
      rw [ih (n + 1) ((c + 1) % K) (Nat.mod_lt _ hK) hsucc]

theorem routed_one (samples : List α) : routed 1 0 0 samples = samples := by
  induction samples with
  | nil => rfl
  | cons s rest ih => simp [routed, ih]

theorem runSource_values (n : Nat) :
    ∀ st : IntrospectedSource α, (runSource n st).1 = runPlain n st.original.samples := by
  induction n with
  | zero => intro st; rfl
  | succ n ih =>
    intro st
    cases hsam : st.original.samples with
    | nil =>
      have hnext : st.next = (none, st) := by
        unfold IntrospectedSource.next
        rw [hsam]
      simp [runSource, runPlain, hnext, hsam, sourceNext, ih]
    | cons v rest =>
      have hnext : st.next
          = (some v,
              ⟨st.access.set st.currentChannel
                  (pushSample st.bufferSize (st.access.getD st.currentChannel []) v),
                st.bufferSize,
                { st.original with samples := rest },
                (st.currentChannel + 1) % st.access.length⟩) := by
        unfold IntrospectedSource.next
        rw [hsam]
      simp [runSource, runPlain, hnext, hsam, sourceNext, ih]

theorem runPlain_closed (n : Nat) :
    ∀ l : List α,
      runPlain n l = (l.take n).map some ++ List.replicate (n - l.length) none := by
  induction n with
  | zero => intro l; simp [runPlain]
  | succ n ih =>
    intro l
    cases l with
    | nil => simp [runPlain, sourceNext, ih, List.replicate_succ]
    | cons v rest => simp [runPlain, sourceNext, ih]

theorem runSource_state (n : Nat) :
    ∀ st : IntrospectedSource α,
      (runSource n st).2
        = ⟨(pushStream st.bufferSize ⟨st.access, st.currentChannel⟩
              (st.original.samples.take n)).buffers,
            st.bufferSize,
            { st.original with samples := st.original.samples.drop n },
            (pushStream st.bufferSize ⟨st.access, st.currentChannel⟩
              (st.original.samples.take n)).currentChannel⟩ := by
  induction n with
  | zero => intro st; simp [runSource, pushStream]
  | succ n ih =>
    intro st
    cases hsam : st.original.samples with
    | nil =>
      have hnext : st.next = (none, st) := by
        unfold IntrospectedSource.next
        rw [hsam]
      simp [runSource, hnext, ih, hsam, pushStream]
    | cons v rest =>
      have hnext : st.next
          = (some v,
              ⟨st.access.set st.currentChannel
                  (pushSample st.bufferSize (st.access.getD st.currentChannel []) v),
                st.bufferSize,
                { st.original with samples := rest },
                (st.currentChannel + 1) % st.access.length⟩) := by
        unfold IntrospectedSource.next
        rw [hsam]
      simp only [runSource, hnext, ih, hsam, List.take_succ_cons, List.drop_succ_cons]
      rfl

theorem pushStream_buffers_length (cap : Nat) :
    ∀ (samples : List α) (st : CaptureState α),
      (pushStream cap st samples).buffers.length = st.buffers.length := by
  intro samples
  induction samples with
  | nil => intro st; rfl
  | cons s rest ih =>
    intro st
    have hstream : pushStream cap st (s :: rest)
        = pushStream cap (pushInterleaved cap st s) rest := rfl
    rw [hstream, ih]
    simp [pushInterleaved]

/-! ## Claims -/

/-- Claim C1: for every channel buffer created with capacity `C` and every
sequence of `N` pushes to that channel — by the shared push discipline of
both producer shapes, exercised below directly, through the push-driven
callback on a one-channel stream, and through the pull-driven wrapper on a
one-channel source — the buffer afterwards holds exactly `min N C` elements,
ordered newest-first (element 0 is the most recently pushed sample, i.e. the
buffer is the reversal of the last `min N C` pushes). -/
theorem c1_capacity_bound {α : Type} (cap : Nat) (samples : List α)
    (src : SourceModel α) (hsrc : src.samples = samples) :
    pushAll cap [] samples = samples.reverse.take cap ∧
    (pushAll cap [] samples).length = min samples.length cap ∧
    (pushStream cap ⟨[[]], 0⟩ samples).buffers.getD 0 []
      = samples.reverse.take cap ∧
    ((runSource samples.length ⟨[[]], cap, src, 0⟩).2).access.getD 0 []
      = samples.reverse.take cap := by
  have hall : pushAll cap [] samples = samples.reverse.take cap := by
    simpa using pushAll_eq cap samples [] (by simp)
  have hstream : (pushStream cap ⟨[[]], 0⟩ samples).buffers.getD 0 []
      = samples.reverse.take cap := by
    have h := pushStream_buffers_getD cap samples [[]] 0 (by simp)
      (by intro b hb; simp at hb; simp [hb]) 0 (by simp)
    simpa [routed_one] using h
  refine ⟨hall, ?_, hstream, ?_⟩
  · rw [hall]
    simp [List.length_take, Nat.min_comm]
  · rw [runSource_state]
    simp only [hsrc, List.take_length]
    exact hstream

/-- Claim C2: round-robin routing.  Starting from `current_channel = 0`, by
either producer shape, sample `i` of the interleaved stream is written to
channel `i mod K` and each channel's newest-first relative order is
preserved; in particular with `K = 2` and capacity 2, pushing
`[L0, R0, L1, R1, L2, R2]` (as `[0, 1, 2, 3, 4, 5]`) leaves channel 0 =
`[L2, L1]` and channel 1 = `[R2, R1]`. -/
theorem c2_round_robin :
    (∀ (α : Type) (K cap : Nat) (samples : List α) (j : Nat), 1 ≤ K → j < K →
      (pushStream cap ⟨List.replicate K [], 0⟩ samples).buffers.getD j []
        = ((samples.enum.filter (fun p => p.1 % K == j)).map
            Prod.snd).reverse.take cap) ∧
    (∀ (α : Type) (K cap : Nat) (src : SourceModel α) (j : Nat), 1 ≤ K → j < K →
      ((runSource src.samples.length
          ⟨List.replicate K [], cap, src, 0⟩).2).access.getD j []
        = ((src.samples.enum.filter (fun p => p.1 % K == j)).map
            Prod.snd).reverse.take cap) ∧
    (pushStream 2 ⟨[[], []], 0⟩ [(0 : ℚ), 1, 2, 3, 4, 5]).buffers
      = [[4, 2], [5, 3]] := by
  have hmain : ∀ (α : Type) (K cap : Nat) (samples : List α) (j : Nat),
      1 ≤ K → j < K →
      (pushStream cap ⟨List.replicate K [], 0⟩ samples).buffers.getD j []
        = ((samples.enum.filter (fun p => p.1 % K == j)).map
            Prod.snd).reverse.take cap := by
    intro α K cap samples j hK hj
    have h := pushStream_buffers_getD cap samples (List.replicate K []) 0
      (by simpa using hK) (by intro b hb; rw [List.eq_of_mem_replicate hb]; simp)
      j (by simpa using hj)
    rw [List.length_replicate] at h
    have hgetD : (List.replicate K ([] : List α)).getD j [] = [] := by
      rw [List.getD_eq_getElem _ _ (by simpa using hj)]
      simp
    rw [hgetD, List.append_nil] at h
    rw [h, routed_eq_filter_enumFrom K j samples 0 0 (by omega) (Nat.zero_mod K)]
    rfl
  refine ⟨hmain, ?_, by rfl⟩
  intro α K cap src j hK hj
  rw [runSource_state]
  simp only [List.take_length]
  exact hmain α K cap src.samples j hK hj

/-- Witness for C2 at `K = 2`, capacity 2, the interleaved stream
`[0, 1, 2, 3, 4, 5]`, channel 0. -/
theorem c2_round_robin_witness :
    (1 ≤ 2 ∧ 0 < 2) ∧
    (pushStream 2 ⟨List.replicate 2 [], 0⟩ [(0 : ℚ), 1, 2, 3, 4, 5]).buffers.getD 0 []
      = ((([(0 : ℚ), 1, 2, 3, 4, 5].enum.filter
          (fun p => p.1 % 2 == 0)).map Prod.snd).reverse.take 2) :=
  ⟨⟨by decide, by decide⟩,
    c2_round_robin.1 ℚ 2 2 [0, 1, 2, 3, 4, 5] 0 (by decide) (by decide)⟩

/-- Witness for C1 at capacity 2 with pushes `[1, 2, 3]`. -/
theorem c1_capacity_bound_witness :
    ([(1 : ℚ), 2, 3] = [(1 : ℚ), 2, 3]) ∧
    pushAll 2 [] [(1 : ℚ), 2, 3] = [(1 : ℚ), 2, 3].reverse.take 2 :=
  ⟨rfl, (c1_capacity_bound 2 [(1 : ℚ), 2, 3]
    ⟨[(1 : ℚ), 2, 3], 1, 44100, none, none⟩ rfl).1⟩

/-- Claim C3: the pull-driven wrapper is transparent.  Over any number `n` of
`next()` calls it returns exactly the values the wrapped source would return,
in the same order, with `none` exactly when the wrapped source is exhausted;
and it forwards `channels`, `sample_rate`, `current_frame_len` and
`total_duration` of the wrapped source unchanged, both before and after any
number of calls.  Capture into the buffers only changes `access`, never the
returned values.  (The hypothesis `1 ≤ access.length` records that a session
has at least one channel; the real code indexes `access[current_channel]`
unconditionally.) -/
theorem c3_transparent_wrapper {α : Type} (st : IntrospectedSource α) (n : Nat)
    (_hK : 1 ≤ st.access.length) :
    (runSource n st).1 = runPlain n st.original.samples ∧
    (runSource n st).1
      = (st.original.samples.take n).map some
        ++ List.replicate (n - st.original.samples.length) none ∧
    st.channels = st.original.channels ∧
    st.sample_rate = st.original.sampleRate ∧
    st.current_frame_len = st.original.currentFrameLen ∧
    st.total_duration = st.original.totalDuration ∧
    ((runSource n st).2).original.channels = st.original.channels ∧
    ((runSource n st).2).original.sampleRate = st.original.sampleRate ∧
    ((runSource n st).2).original.currentFrameLen = st.original.currentFrameLen ∧
    ((runSource n st).2).original.totalDuration = st.original.totalDuration := by
  refine ⟨runSource_values n st, ?_, rfl, rfl, rfl, rfl, ?_, ?_, ?_, ?_⟩
  · rw [runSource_values n st, runPlain_closed]
  all_goals rw [runSource_state n st]

/-- Witness for C3: a one-channel wrapper over the samples `[1, 2, 3]`,
observed for 5 calls. -/
theorem c3_transparent_wrapper_witness :
    1 ≤ ([([] : List ℚ)]).length ∧
    (runSource 5 (⟨[[]], 2, ⟨[(1 : ℚ), 2, 3], 2, 44100, none, none⟩, 0⟩ :
        IntrospectedSource ℚ)).1
      = runPlain 5 [(1 : ℚ), 2, 3] :=
  ⟨by decide,
    (c3_transparent_wrapper
      ⟨[[]], 2, ⟨[(1 : ℚ), 2, 3], 2, 44100, none, none⟩, 0⟩ 5 (by decide)).1⟩

/-- Claim C4: every snapshot taken by `Introspectable::channels` /
`audio_views` has exactly `buffer_size` elements — the channel's current
contents newest-first followed by zero samples filling the unfilled tail —
for every channel whose buffer respects the capacity invariant, regardless
of how many samples have been captured. -/
theorem c4_snapshot_padding (cap : Nat) (access : List (List ℚ)) (rate : Nat)
    (hlen : ∀ b ∈ access, b.length ≤ cap) :
    (∀ s ∈ Introspectable.channels access cap, s.length = cap) ∧
    (∀ j, j < access.length →
      (Introspectable.channels access cap).getD j []
        = access.getD j [] ++ List.replicate (cap - (access.getD j []).length) 0) ∧
    (∀ v ∈ Introspectable.audio_views access rate cap,
      v.samples.length = cap ∧ v.sampleRate = rate) := by
  have hrep : ∀ n : Nat, (List.range n).map (fun _ => (0 : ℚ))
      = List.replicate n 0 := by
    intro n
    apply List.eq_replicate_iff.2
    constructor
    · simp
    · intro b hb
      rcases List.mem_map.1 hb with ⟨x, _, hx⟩
      exact hx.symm
  have hsnap : ∀ s ∈ Introspectable.channels access cap, s.length = cap := by
    intro s hs
    rcases List.mem_map.1 hs with ⟨b, hb, hfb⟩
    have := hlen b hb
    rw [← hfb]
    simp only [List.length_append, List.length_map, List.length_range]
    omega
  refine ⟨hsnap, ?_, ?_⟩
  · intro j hj
    rw [List.getD_eq_getElem _ _ (by simpa [Introspectable.channels] using hj),
      List.getD_eq_getElem _ _ hj]
    unfold Introspectable.channels
    rw [List.getElem_map]
    rw [hrep]
  · intro v hv
    rcases List.mem_map.1 hv with ⟨channel, hchannel, hfv⟩
    constructor
    · rw [← hfv]
      exact hsnap channel hchannel
    · rw [← hfv]

/-- Witness for C4: two channels `[5]` and `[6, 7]`, capacity 3. -/
theorem c4_snapshot_padding_witness :
    (∀ b ∈ [[(5 : ℚ)], [6, 7]], b.length ≤ 3) ∧
    (∀ s ∈ Introspectable.channels [[(5 : ℚ)], [6, 7]] 3, s.length = 3) :=
  ⟨by decide, (c4_snapshot_padding 3 [[(5 : ℚ)], [6, 7]] 44100 (by decide)).1⟩

/-- Counterexample to C5 as stated: a spectrum with 2 bins and sample rate 1
has `nyquist_frequency = 0` (integer division), and the round trip at bin 1
collapses to 0 instead of 1 (the Rust code divides by a zero nyquist there,
producing `NaN`, which is not within any tolerance of 1 either). -/
theorem c5_round_trip_counterexample :
    (1 : Nat) < (⟨[0, 0], 1⟩ : FrequencySpectrum).bins.length ∧
    FrequencySpectrum.hertz_to_bin ⟨[0, 0], 1⟩
      (FrequencySpectrum.bin_to_hertz ⟨[0, 0], 1⟩ 1) ≠ (1 : ℚ) := by
  constructor
  · decide
  · intro h
    rw [show FrequencySpectrum.hertz_to_bin ⟨[0, 0], 1⟩
        (FrequencySpectrum.bin_to_hertz ⟨[0, 0], 1⟩ 1) = 0 from by
      norm_num [FrequencySpectrum.hertz_to_bin, FrequencySpectrum.bin_to_hertz,
        FrequencySpectrum.nyquist_frequency]] at h
    exact absurd h (by norm_num)

/-- Claim C5 (amended): for every `FrequencySpectrum` with `bin_count ≥ 1`
and a nonzero nyquist frequency (sample rate at least 2), and every bin
index `b` in `[0, bin_count)`, the linear conversions round-trip exactly:
`hertz_to_bin (bin_to_hertz b) = b` (so in `f32` arithmetic the result is
`b` within floating-point tolerance). -/
theorem c5_round_trip (s : FrequencySpectrum) (b : Nat)
    (hb : b < s.bins.length) (hnyq : 1 ≤ s.nyquist_frequency) :
    s.hertz_to_bin (s.bin_to_hertz b) = (b : ℚ) := by
  unfold FrequencySpectrum.hertz_to_bin FrequencySpectrum.bin_to_hertz
  have hlen : (0 : ℚ) < (s.bins.length : ℚ) := by
    have h0 : 0 < s.bins.length := Nat.lt_of_le_of_lt (Nat.zero_le b) hb
    exact_mod_cast h0
  have hq : (0 : ℚ) < (s.nyquist_frequency : ℚ) := by exact_mod_cast hnyq
  have hL : (s.bins.length : ℚ) ≠ 0 := ne_of_gt hlen
  have hQ : (s.nyquist_frequency : ℚ) ≠ 0 := ne_of_gt hq
  field_simp
  ring

/-- Witness for C5 at a 4-bin spectrum with sample rate 4 and bin 3. -/
theorem c5_round_trip_witness :
    (3 < (⟨[0, 0, 0, 0], 4⟩ : FrequencySpectrum).bins.length ∧
      1 ≤ (⟨[0, 0, 0, 0], 4⟩ : FrequencySpectrum).nyquist_frequency) ∧
    FrequencySpectrum.hertz_to_bin ⟨[0, 0, 0, 0], 4⟩
      (FrequencySpectrum.bin_to_hertz ⟨[0, 0, 0, 0], 4⟩ 3) = (3 : ℚ) :=
  ⟨⟨by decide, by decide⟩, c5_round_trip ⟨[0, 0, 0, 0], 4⟩ 3 (by decide) (by decide)⟩

/-- Claim C6: merging any spectrum `s` with any other spectrum under the
reconciler that always returns the supplied left bin value yields a spectrum
with exactly `s`'s bins and `s`'s sample rate; in particular merging a
spectrum with itself under this reconciler yields a spectrum equal to the
input.  `merge` is a pure constructor of a new value — the model's inputs
are untouched by construction, matching the Rust `&self` borrows. -/
theorem c6_merge_identity (s other : FrequencySpectrum) :
    (s.merge other (fun _ p _ => p.2)).bins = s.bins ∧
    (s.merge other (fun _ p _ => p.2)).sampleRate = s.sampleRate ∧
    s.merge s (fun _ p _ => p.2) = s := by
  have h : ∀ t : FrequencySpectrum, s.merge t (fun _ p _ => p.2) = s := by
    intro t
    unfold FrequencySpectrum.merge
    cases s with
    | mk bins rate => simp [List.enum_map_snd]
  exact ⟨by rw [h other], by rw [h other], h s⟩

theorem lerp_index_fn_natCast (data : Nat → Option ℚ) (i : Nat) (wrap : ℚ) :
    lerp_index_fn data (i : ℚ) wrap = (data i).getD wrap := by
  unfold lerp_index_fn truncQ
  have h3 : ¬((i : ℚ) < 0) := by
    simp
  rw [if_neg h3]
  have h1 : ⌊(i : ℚ)⌋ = (i : ℤ) := Int.floor_natCast i
  rw [h1]
  simp

theorem hertz_to_bin_bin_to_hertz (old new : FrequencySpectrum) (i : Nat)
    (hlen : old.bins.length = new.bins.length) (hrate : old.sampleRate = new.sampleRate)
    (hnyq : 1 ≤ new.nyquist_frequency) (hi : i < new.bins.length) :
    old.hertz_to_bin (new.bin_to_hertz i) = (i : ℚ) := by
  unfold FrequencySpectrum.hertz_to_bin FrequencySpectrum.bin_to_hertz
    FrequencySpectrum.nyquist_frequency
  rw [hlen, hrate]
  have hlpos : (0 : ℚ) < (new.bins.length : ℚ) := by
    exact_mod_cast Nat.lt_of_le_of_lt (Nat.zero_le i) hi
  have hq : (0 : ℚ) < ((new.sampleRate / 2 : Nat) : ℚ) := by
    have := hnyq
    unfold FrequencySpectrum.nyquist_frequency at this
    exact_mod_cast this
  have hL : (new.bins.length : ℚ) ≠ 0 := ne_of_gt hlpos
  have hQ : ((new.sampleRate / 2 : Nat) : ℚ) ≠ 0 := ne_of_gt hq
  field_simp
  ring

/-- Counterexample to C7 as stated: with elapsed time 0 the factor is 0, but
the smoothed output is rebuilt over the *new* spectrum's bins by frequency
lookup into the old one, so when the two ticks' spectra differ in shape
(here: 3 previous bins, 2 current bins, as after a device switch) the output
is not equal to the previous frame's spectrum. -/
theorem c7_smoothing_counterexample :
    smoothingFactor 0 = 0 ∧
    smoothTick ⟨[1, 2, 3], 4⟩ ⟨[5, 6], 4⟩ 0 ≠ (⟨[1, 2, 3], 4⟩ : FrequencySpectrum) := by
  constructor
  · unfold smoothingFactor
    norm_num
  · intro h
    have hlen : (smoothTick ⟨[1, 2, 3], 4⟩ ⟨[5, 6], 4⟩ 0).bins.length = 3 := by
      rw [h]
      rfl
    rw [show (smoothTick ⟨[1, 2, 3], 4⟩ ⟨[5, 6], 4⟩ 0).bins.length = 2 from by
      simp [smoothTick, FrequencySpectrum.merge]] at hlen
    exact absurd hlen (by norm_num)

/-- Claim C7 (amended): the per-tick factor is `1 − (1 − 0.2)^(Δt·100)`;
at `Δt = 0` the factor is exactly 0, and for every channel present in both
ticks *whose spectrum kept its bin count and sample rate* (with a nonzero
nyquist frequency) the smoothed output equals the previous frame's spectrum
exactly; when the factor reaches 1, the smoothed output equals the newly
blended spectrum, provided the previous spectrum's nyquist frequency is
nonzero.  The latter guard is required for fidelity to the `f32` code: the
reconciler looks the frequency up in the previous spectrum *before* the
factor-1 `lerp` discards the looked-up value, and with a zero nyquist (as in
`FrequencySpectrum::default()`) that lookup divides by zero and its `NaN`
poisons the output, a path the exact rational model cannot express and must
therefore exclude by hypothesis. -/
theorem c7_smoothing_boundary :
    smoothingFactor 0 = 0 ∧
    (∀ old new : FrequencySpectrum,
      old.bins.length = new.bins.length → old.sampleRate = new.sampleRate →
      1 ≤ new.nyquist_frequency → smoothTick old new 0 = old) ∧
    (∀ old new : FrequencySpectrum, 1 ≤ old.nyquist_frequency →
      smoothTick old new 1 = new) := by
  refine ⟨?_, ?_, ?_⟩
  · unfold smoothingFactor
    norm_num
  · intro old new hlen hrate hnyq
    unfold smoothTick FrequencySpectrum.merge
    have hbins : new.bins.enum.map (fun p =>
        lerp (lerp_index_fn old.get (old.hertz_to_bin (new.bin_to_hertz p.1)) 0)
          p.2 0) = old.bins := by
      apply List.ext_getElem
      · simp [hlen]
      · intro i h1 h2
        rw [List.getElem_map, List.getElem_enum]
        have hi : i < new.bins.length := by simpa using h1
        rw [hertz_to_bin_bin_to_hertz old new i hlen hrate hnyq hi,
          lerp_index_fn_natCast]
        unfold lerp FrequencySpectrum.get
        have hio : i < old.bins.length := by omega
        rw [List.get?_eq_getElem? , List.getElem?_eq_getElem hio]
        simp
    cases old with
    | mk obins orate =>
      simp only at hbins
      simp only [FrequencySpectrum.mk.injEq]
      exact ⟨hbins, hrate.symm⟩
  · intro old new _hnyq
    unfold smoothTick FrequencySpectrum.merge
    have hbins : new.bins.enum.map (fun p =>
        lerp (lerp_index_fn old.get (old.hertz_to_bin (new.bin_to_hertz p.1)) 0)
          p.2 1) = new.bins := by
      have hcongr : new.bins.enum.map (fun p =>
          lerp (lerp_index_fn old.get (old.hertz_to_bin (new.bin_to_hertz p.1)) 0)
            p.2 1) = new.bins.enum.map (fun p => p.2) := by
        apply List.map_congr_left
        intro p _
        unfold lerp
        ring
      rw [hcongr, List.enum_map_snd]
    cases new with
    | mk nbins nrate =>
      simp only at hbins
      simp [hbins]

/-- Witness for C7: previous spectrum `[3, 7]`, current spectrum `[5, 6]`,
both with sample rate 4 (nyquist 2), smoothed with factor 0 and with
factor 1. -/
theorem c7_smoothing_boundary_witness :
    ((⟨[3, 7], 4⟩ : FrequencySpectrum).bins.length
        = (⟨[5, 6], 4⟩ : FrequencySpectrum).bins.length ∧
      1 ≤ (⟨[5, 6], 4⟩ : FrequencySpectrum).nyquist_frequency ∧
      1 ≤ (⟨[3, 7], 4⟩ : FrequencySpectrum).nyquist_frequency) ∧
    smoothTick ⟨[3, 7], 4⟩ ⟨[5, 6], 4⟩ 0 = (⟨[3, 7], 4⟩ : FrequencySpectrum) ∧
    smoothTick ⟨[3, 7], 4⟩ ⟨[5, 6], 4⟩ 1 = (⟨[5, 6], 4⟩ : FrequencySpectrum) :=
  ⟨⟨rfl, by decide, by decide⟩,
    c7_smoothing_boundary.2.1 ⟨[3, 7], 4⟩ ⟨[5, 6], 4⟩ rfl rfl (by decide),
    c7_smoothing_boundary.2.2 ⟨[3, 7], 4⟩ ⟨[5, 6], 4⟩ (by decide)⟩

theorem updateSpectra_length (f : ℚ) :
    ∀ (old new : List FrequencySpectrum),
      (updateSpectra f old new).length = max old.length new.length := by
  intro old
  induction old with
  | nil =>
    intro new
    induction new with
    | nil => simp [updateSpectra]
    | cons n ns ihn =>
      rw [show updateSpectra f [] (n :: ns) = n :: updateSpectra f [] ns from by
        simp [updateSpectra]]
      simp only [List.length_cons, ihn, List.length_nil]
      omega
  | cons o os ih =>
    intro new
    cases new with
    | nil =>
      rw [show updateSpectra f (o :: os) []
          = FrequencySpectrum.default :: updateSpectra f os [] from by
        simp [updateSpectra]]
      simp only [List.length_cons, ih [], List.length_nil]
      omega
    | cons n ns =>
      rw [show updateSpectra f (o :: os) (n :: ns)
          = smoothTick o n f :: updateSpectra f os ns from by
        simp [updateSpectra]]
      simp only [List.length_cons, ih ns]
      omega

theorem updateSpectra_getD_dropped (f : ℚ) :
    ∀ (old new : List FrequencySpectrum) (j : Nat) (d : FrequencySpectrum),
      new.length ≤ j → j < old.length →
      (updateSpectra f old new).getD j d = FrequencySpectrum.default := by
  intro old
  induction old with
  | nil =>
    intro new j d _ h2
    simp at h2
  | cons o os ih =>
    intro new j d h1 h2
    cases new with
    | nil =>
      rw [show updateSpectra f (o :: os) []
          = FrequencySpectrum.default :: updateSpectra f os [] from by
        simp [updateSpectra]]
      cases j with
      | zero => rfl
      | succ j =>
        have h := ih [] j d (by simp) (by simpa using h2)
        simpa using h
    | cons n ns =>
      rw [show updateSpectra f (o :: os) (n :: ns)
          = smoothTick o n f :: updateSpectra f os ns from by
        simp [updateSpectra]]
      cases j with
      | zero => simp at h1
      | succ j =>
        have h := ih ns j d (by simpa using h1) (by simpa using h2)
        simpa using h

theorem updateSpectra_getD_both (f : ℚ) :
    ∀ (old new : List FrequencySpectrum) (j : Nat) (d : FrequencySpectrum),
      j < old.length → j < new.length →
      (updateSpectra f old new).getD j d
        = smoothTick (old.getD j d) (new.getD j d) f := by
  intro old
  induction old with
  | nil =>
    intro new j d h1 _
    simp at h1
  | cons o os ih =>
    intro new j d h1 h2
    cases new with
    | nil => simp at h2
    | cons n ns =>
      rw [show updateSpectra f (o :: os) (n :: ns)
          = smoothTick o n f :: updateSpectra f os ns from by
        simp [updateSpectra]]
      cases j with
      | zero => rfl
      | succ j =>
        have h := ih ns j d (by simpa using h1) (by simpa using h2)
        simpa using h

/-- Counterexample to C8 as stated: with two previous channels and one
current channel, the compositor's output still has two entries — the slot of
the disappeared channel is kept and holds `FrequencySpectrum::default()`
(the `EitherOrBoth::Left` arm of `update`), so the output is not free of
entries for disappeared channels. -/
theorem c8_dropped_channel_counterexample :
    updateSpectra (1 / 2) [⟨[1], 4⟩, ⟨[2], 4⟩] [⟨[3], 4⟩]
      = [smoothTick ⟨[1], 4⟩ ⟨[3], 4⟩ (1 / 2), FrequencySpectrum.default] ∧
    (updateSpectra (1 / 2) [⟨[1], 4⟩, ⟨[2], 4⟩] [⟨[3], 4⟩]).length ≠ 1 := by
  have hval : updateSpectra (1 / 2) [⟨[1], 4⟩, ⟨[2], 4⟩] [⟨[3], 4⟩]
      = [smoothTick ⟨[1], 4⟩ ⟨[3], 4⟩ (1 / 2), FrequencySpectrum.default] := by
    simp [updateSpectra]
  refine ⟨hval, ?_⟩
  rw [hval]
  norm_num

/-- Claim C8 (amended): when the channel count decreases between two ticks,
every channel that was present in the previous tick but has no counterpart
in the current tick keeps its slot in the compositor's per-channel output,
set to the default (empty) spectrum — the output has as many entries as the
previous tick, with the smoothed spectra in the still-present slots and
`FrequencySpectrum::default()` in the disappeared slots. -/
theorem c8_dropped_channel (old new : List FrequencySpectrum) (f : ℚ)
    (h : new.length ≤ old.length) :
    (updateSpectra f old new).length = old.length ∧
    (∀ j, new.length ≤ j → j < old.length →
      (updateSpectra f old new).getD j FrequencySpectrum.default
        = FrequencySpectrum.default) ∧
    (∀ j, j < new.length →
      (updateSpectra f old new).getD j FrequencySpectrum.default
        = smoothTick (old.getD j FrequencySpectrum.default)
            (new.getD j FrequencySpectrum.default) f) := by
  refine ⟨?_, ?_, ?_⟩
  · rw [updateSpectra_length]
    omega
  · intro j h1 h2
    exact updateSpectra_getD_dropped f old new j _ h1 h2
  · intro j hj
    exact updateSpectra_getD_both f old new j _ (by omega) hj

/-- Witness for C8: previous spectra `[⟨[1],4⟩, ⟨[2],4⟩]`, current spectra
`[⟨[3],4⟩]`, factor `1/2`. -/
theorem c8_dropped_channel_witness :
    ([(⟨[3], 4⟩ : FrequencySpectrum)].length
        ≤ [(⟨[1], 4⟩ : FrequencySpectrum), ⟨[2], 4⟩].length) ∧
    (updateSpectra (1 / 2) [⟨[1], 4⟩, ⟨[2], 4⟩] [⟨[3], 4⟩]).length
      = [(⟨[1], 4⟩ : FrequencySpectrum), ⟨[2], 4⟩].length :=
  ⟨by decide,
    (c8_dropped_channel [⟨[1], 4⟩, ⟨[2], 4⟩] [⟨[3], 4⟩] (1 / 2) (by decide)).1⟩

/-- Claim C9: `to_dbfs` is a total function — bad inputs produce `none`, a
representable absent result, never a crash.  It returns `none` whenever
`20·log10 x` is non-finite, in particular for every `x ≤ 0`, and returns
`some (20·log10 x)` whenever `x > 0` (in the real idealisation that value is
then zero or finite/normal). -/
theorem c9_to_dbfs_total (x : ℝ) :
    (x ≤ 0 → to_dbfs x = none) ∧
    (0 < x → to_dbfs x = some (20 * Real.logb 10 x)) := by
  constructor
  · intro hx
    unfold to_dbfs
    rw [if_neg (not_lt.2 hx)]
  · intro hx
    unfold to_dbfs
    rw [if_pos hx]

/-- Witness for C9 at `x = -1` (silence/invalid input) and `x = 1`
(full scale). -/
theorem c9_to_dbfs_total_witness :
    ((-1 : ℝ) ≤ 0 ∧ to_dbfs (-1) = none) ∧
    ((0 : ℝ) < 1 ∧ to_dbfs 1 = some (20 * Real.logb 10 1)) :=
  ⟨⟨by norm_num, (c9_to_dbfs_total (-1)).1 (by norm_num)⟩,
    ⟨by norm_num, (c9_to_dbfs_total 1).2 (by norm_num)⟩⟩

theorem audio_views_samples_length (cap : Nat) (access : List (List ℚ))
    (rate : Nat) (hlen : ∀ b ∈ access, b.length ≤ cap) :
    ∀ v ∈ Introspectable.audio_views access rate cap, v.samples.length = cap := by
  intro v hv
  rcases List.mem_map.1 hv with ⟨channel, hchannel, hfv⟩
  rcases List.mem_map.1 hchannel with ⟨b, hb, hfb⟩
  have hble := hlen b hb
  rw [← hfv]
  simp only
  rw [← hfb]
  simp only [List.length_append, List.length_map, List.length_range]
  omega

/-- Claim C10: `AudioView::subview(range)` panics — modelled as `none` —
whenever `range.end` exceeds the view's length; consequently the per-tick
short-window analysis `subview(0..8192)` requires every snapshot (whose
length is the capacity) to be at least 8192 samples long, i.e.
`sample_rate × 1 s = ceil(sample_rate · 1) ≥ 8192` for the configured
1-second buffer, and a tick with a shorter snapshot panics rather than
erring recoverably. -/
theorem c10_subview_panic :
    (∀ (v : AudioView) (a b : Nat), v.samples.length < b →
      v.subview a b = none) ∧
    (∀ v : AudioView, 8192 ≤ v.samples.length →
      v.subview 0 8192 = some ⟨v.samples.take 8192, v.sampleRate⟩ ∧
      ∀ w, v.subview 0 8192 = some w → w.samples.length = 8192) ∧
    (∀ (access : List (List ℚ)) (rate cap : Nat),
      (∀ b ∈ access, b.length ≤ cap) → cap < 8192 →
      ∀ v ∈ Introspectable.audio_views access rate cap,
        v.subview 0 8192 = none) ∧
    (∀ rate : Nat, bufferSizeFor rate 1 = rate) := by
  have hnone : ∀ (v : AudioView) (a b : Nat), v.samples.length < b →
      v.subview a b = none := by
    intro v a b h
    unfold AudioView.subview
    rw [if_neg]
    intro hcon
    omega
  refine ⟨hnone, ?_, ?_, ?_⟩
  · intro v h
    have hsub : v.subview 0 8192 = some ⟨v.samples.take 8192, v.sampleRate⟩ := by
      unfold AudioView.subview
      rw [if_pos ⟨by omega, h⟩]
      simp
    refine ⟨hsub, ?_⟩
    intro w hw
    rw [hsub] at hw
    have hwe := Option.some.inj hw
    rw [← hwe]
    simp only [List.length_take]
    omega
  · intro access rate cap hb hcap v hv
    apply hnone
    rw [audio_views_samples_length cap access rate hb v hv]
    exact hcap
  · intro rate
    unfold bufferSizeFor
    rw [mul_one]
    rw [show ⌈(rate : ℚ)⌉ = (rate : ℤ) from Int.ceil_natCast rate]
    exact Int.toNat_natCast rate

/-- Witness for C10: the empty snapshot (length 0 < 8192) makes
`subview(0..8192)` panic. -/
theorem c10_subview_panic_witness :
    ((⟨[], 44100⟩ : AudioView).samples.length < 8192) ∧
    (⟨[], 44100⟩ : AudioView).subview 0 8192 = none :=
  ⟨by decide, c10_subview_panic.1 ⟨[], 44100⟩ 0 8192 (by decide)⟩

end AudioWhiz
